import Mathlib

/-!
LED-Ear-Wings: the `XY` coordinate mapper of `XYmap.h`.

A shallow embedding of the 8x11 irregular-matrix lookup of `XYmap.h`:
the dimension constants, the `NUM_LEDS` and `LAST_VISIBLE_LED` macros, the
`XYTable` lookup table, the pixel-layout diagram of the header comment and the
function `XY`.

Machine integers: `uint8_t` values are natural numbers below `256`; a value
stored into a `uint8_t` is reduced modulo `256` (`toU8`).  The array read
`XYTable[i]` is unchecked in C, so the embedding reads with `List.get?`-style
indexing and `XY` returns an `Option`: `none` stands for a read outside the
table.
-/

namespace XYmap

/-! ## Constants and data of `XYmap.h` -/

/-- Conversion of an `int` value to `uint8_t`. -/
def toU8 (n : Nat) : Nat := n % 256

/-- Source: `const uint8_t kMatrixWidth = 8;` -/
def kMatrixWidth : Nat := 8

/-- Source: `const uint8_t kMatrixHeight = 11;` -/
def kMatrixHeight : Nat := 11

/-- Source: `#define NUM_LEDS (kMatrixWidth * kMatrixHeight)`, the size of the
`leds` buffer (`CRGB leds[ NUM_LEDS ];`). -/
def NUM_LEDS : Nat := kMatrixWidth * kMatrixHeight

/-- Source: `#define LAST_VISIBLE_LED 62`. -/
def LAST_VISIBLE_LED : Nat := 62

/-- Source: the local array `const uint8_t XYTable[]` of `XY`, entry by entry. -/
def XYTable : List Nat :=
  [  0,   1,   2,   3,   4,   5,  63,  64,
     6,   7,   8,   9,  10,  65,  66,  67,
    11,  12,  13,  14,  15,  68,  69,  70,
    16,  17,  18,  19,  20,  71,  72,  73,
    21,  22,  23,  24,  25,  74,  75,  76,
    26,  27,  28,  29,  30,  31,  77,  78,
    32,  33,  34,  35,  36,  37,  38,  79,
    39,  40,  41,  42,  43,  44,  45,  46,
    47,  48,  49,  50,  51,  52,  53,  80,
    54,  55,  56,  57,  58,  81,  82,  83,
    59,  60,  61,  62,  84,  85,  86,  87 ]

/-- Source: `uint8_t i = (y * kMatrixWidth) + x;` -- the product and the sum
are computed in `int`, the result is stored in a `uint8_t`. -/
def XYoffset (x y : Nat) : Nat := toU8 (y * kMatrixWidth + x)

/-- Source: `uint8_t XY( uint8_t x, uint8_t y)`.  The arguments are `uint8_t`
values (`x, y < 256`).  `none` is a read outside `XYTable`. -/
def XY (x y : Nat) : Option Nat :=
  if x ≥ kMatrixWidth ∨ y ≥ kMatrixHeight then
    some (toU8 (LAST_VISIBLE_LED + 1))
  else
    let i := XYoffset x y
    (XYTable[i]?).map toU8

/-- Source: the "Pixel layout" diagram of the header comment, row by row; a
number is a lit pixel, `none` is a dot of the diagram. -/
def pixelLayout : List (List (Option Nat)) :=
  [ [some  0, some  1, some  2, some  3, some  4, some  5, none,    none   ],
    [some  6, some  7, some  8, some  9, some 10, none,    none,    none   ],
    [some 11, some 12, some 13, some 14, some 15, none,    none,    none   ],
    [some 16, some 17, some 18, some 19, some 20, none,    none,    none   ],
    [some 21, some 22, some 23, some 24, some 25, none,    none,    none   ],
    [some 26, some 27, some 28, some 29, some 30, some 31, none,    none   ],
    [some 32, some 33, some 34, some 35, some 36, some 37, some 38, none   ],
    [some 39, some 40, some 41, some 42, some 43, some 44, some 45, some 46],
    [some 47, some 48, some 49, some 50, some 51, some 52, some 53, none   ],
    [some 54, some 55, some 56, some 57, some 58, none,    none,    none   ],
    [some 59, some 60, some 61, some 62, none,    none,    none,    none   ] ]

/-- The cell of the diagram at column `x`, row `y`; `none` outside the diagram
and on a dot. -/
def diagramCell (x y : Nat) : Option Nat := ((pixelLayout[y]?).getD [])[x]?.join

/-- Number of lit pixels in each row of the diagram. -/
def rowLen : List Nat := [6, 5, 5, 5, 5, 6, 7, 8, 7, 5, 4]

/-- Number of the first lit pixel in each row of the diagram. -/
def rowStart : List Nat := [0, 6, 11, 16, 21, 26, 32, 39, 47, 54, 59]

/-- Position `(x, y)` is a lit position of the diagram: `y < 11` and
`x < rowLen[y]`. -/
def lit (x y : Nat) : Prop := y < 11 ∧ x < rowLen.getD y 0

instance (x y : Nat) : Decidable (lit x y) := by unfold lit; infer_instance

/-- The table index back to coordinates: the position of `v` in `XYTable`,
split into column and row. -/
def coordOf (v : Nat) : Nat × Nat :=
  (XYTable.indexOf v % kMatrixWidth, XYTable.indexOf v / kMatrixWidth)

/-- Position `(x, y)` is a hole of the rectangle: inside it and not lit,
`y < 11` and `rowLen[y] <= x < 8`. -/
def isHole (x y : Nat) : Prop := y < 11 ∧ rowLen.getD y 0 ≤ x ∧ x < 8

instance (x y : Nat) : Decidable (isHole x y) := by unfold isHole; infer_instance

/-- Position `(a, b)` strictly precedes `(x, y)` in row-major order: an
earlier row, or the same row and an earlier column. -/
def precedes (a b x y : Nat) : Prop := b < y ∨ (b = y ∧ a < x)

instance (a b x y : Nat) : Decidable (precedes a b x y) := by unfold precedes; infer_instance

/-- The positions of the rectangle, row by row, as `(column, row)`. -/
def rectangle : List (Nat × Nat) :=
  (List.range kMatrixHeight).flatMap fun b => (List.range kMatrixWidth).map fun a => (a, b)

/-- Number of holes of the rectangle that strictly precede `(x, y)` in
row-major order. -/
def holesBefore (x y : Nat) : Nat :=
  rectangle.countP fun p => decide (isHole p.1 p.2 ∧ precedes p.1 p.2 x y)

/-- Size in bytes of one `uint8_t`. -/
def sizeofU8 : Nat := 1

/-! ## Basic facts -/

theorem rowLen_from_diagram :
    rowLen = pixelLayout.map (fun r => (r.filter Option.isSome).length) := by decide

theorem rowStart_from_diagram :
    rowStart.map some = pixelLayout.map (fun r => (r[0]?).join) := by decide

theorem lit_iff_diagramCell :
    ∀ y < 12, ∀ x < 9, (lit x y ↔ (diagramCell x y).isSome = true) := by decide

/-- Every entry of the table fits in a `uint8_t`. -/
theorem XYTable_entries_u8 : ∀ v ∈ XYTable, v < 256 := by decide

/-- Out of the rectangle `XY` takes its first branch. -/
theorem XY_of_out (x y : Nat) (h : kMatrixWidth ≤ x ∨ kMatrixHeight ≤ y) :
    XY x y = some 63 := by
  unfold XY
  rw [if_pos h]
  rfl

/-- In the rectangle the stored offset is the exact row-major offset. -/
theorem XYoffset_exact (x y : Nat) (hx : x < kMatrixWidth) (hy : y < kMatrixHeight) :
    XYoffset x y = y * kMatrixWidth + x ∧ XYoffset x y < 88 := by
  unfold XYoffset toU8
  unfold kMatrixWidth at *
  unfold kMatrixHeight at hy
  omega

/-- In the rectangle `XY` is the table entry at the row-major offset. -/
theorem XY_in_table : ∀ x < 8, ∀ y < 11, XY x y = some (XYTable.getD (y * 8 + x) 0) := by
  decide

/-- What the table holds at each in-range position: a buffer index, whose
position in the table is the position read, visible exactly on the lit
positions, where it is the number of the diagram. -/
theorem XYTable_cells : ∀ x < 8, ∀ y < 11,
    XYTable.getD (y * 8 + x) 0 < 88 ∧
    coordOf (XYTable.getD (y * 8 + x) 0) = (x, y) ∧
    (XYTable.getD (y * 8 + x) 0 ≤ 62 ↔ lit x y) ∧
    (lit x y → XYTable.getD (y * 8 + x) 0 = rowStart.getD y 0 + x ∧
      diagramCell x y = some (rowStart.getD y 0 + x)) := by
  decide

set_option maxRecDepth 8000 in
/-- Every buffer index is read back from the table at `coordOf`. -/
theorem XY_coordOf : ∀ v < 88,
    (coordOf v).1 < 8 ∧ (coordOf v).2 < 11 ∧ XY (coordOf v).1 (coordOf v).2 = some v := by
  decide

/-- A lit position is inside the rectangle. -/
theorem lit_in_range (x y : Nat) (h : lit x y) : x < 8 ∧ y < 11 := by
  obtain ⟨hy, hx⟩ := h
  refine ⟨?_, hy⟩
  have hle : ∀ y < 11, rowLen.getD y 0 ≤ 8 := by decide
  exact Nat.lt_of_lt_of_le hx (hle y hy)

/-- In the rectangle `XY` returns a table entry with all the facts of
`XYTable_cells`, stated over the dimension constants. -/
theorem XY_in_range (x y : Nat) (hx : x < kMatrixWidth) (hy : y < kMatrixHeight) :
    ∃ v, XY x y = some v ∧ v < 88 ∧ coordOf v = (x, y) ∧ (v ≤ 62 ↔ lit x y) ∧
      (lit x y → v = rowStart.getD y 0 + x ∧ diagramCell x y = some v) := by
  obtain ⟨h1, h2, h3, h4⟩ := XYTable_cells x hx y hy
  refine ⟨_, XY_in_table x hx y hy, h1, h2, h3, fun hl => ?_⟩
  obtain ⟨h5, h6⟩ := h4 hl
  exact ⟨h5, by rw [h6, h5]⟩

/-- Outside the rectangle no position is lit. -/
theorem not_lit_of_out (x y : Nat) (h : kMatrixWidth ≤ x ∨ kMatrixHeight ≤ y) :
    ¬ lit x y := by
  intro hl
  obtain ⟨h1, h2⟩ := lit_in_range x y hl
  unfold kMatrixWidth kMatrixHeight at h
  omega

/-- Two in-range positions with the same index are the same position. -/
theorem XY_in_range_inj (x y a b : Nat) (hx : x < kMatrixWidth) (hy : y < kMatrixHeight)
    (ha : a < kMatrixWidth) (hb : b < kMatrixHeight) (h : XY x y = XY a b) :
    x = a ∧ y = b := by
  obtain ⟨v, hv, -, hc, -⟩ := XY_in_range x y hx hy
  obtain ⟨w, hw, -, hd, -⟩ := XY_in_range a b ha hb
  have hvw : v = w := by
    rw [hv, hw] at h
    exact Option.some.inj h
  rw [hvw, hd] at hc
  exact ⟨(congrArg Prod.fst hc).symm, (congrArg Prod.snd hc).symm⟩

/-- Every buffer index below `88` has exactly one in-range position. -/
theorem XY_in_range_existsUnique (v : Nat) (hv : v < 88) :
    ∃! p : Nat × Nat, p.1 < kMatrixWidth ∧ p.2 < kMatrixHeight ∧ XY p.1 p.2 = some v := by
  obtain ⟨h1, h2, h3⟩ := XY_coordOf v hv
  refine ⟨coordOf v, ⟨h1, h2, h3⟩, ?_⟩
  rintro ⟨a, b⟩ ⟨ha, hb, hab⟩
  obtain ⟨e1, e2⟩ := XY_in_range_inj a b _ _ ha hb h1 h2 (hab.trans h3.symm)
  exact Prod.ext e1 e2

/-! ## The claims -/

/-- C1. Totality, no out-of-bounds buffer index: for every `x` and `y` of the
8-bit range `0..255`, `XY x y` returns a value (the table read is inside the
table) and the value is in `[0, NUM_LEDS - 1] = [0, 87]`, where
`NUM_LEDS = kMatrixWidth * kMatrixHeight = 88` is the size of `leds`. -/
theorem XY_total (x y : Nat) (_hx : x < 256) (_hy : y < 256) :
    ∃ v, XY x y = some v ∧ v ≤ NUM_LEDS - 1 ∧ v < NUM_LEDS ∧
      NUM_LEDS = kMatrixWidth * kMatrixHeight ∧ NUM_LEDS = 88 := by
  have hN : NUM_LEDS = 88 := rfl
  by_cases h : kMatrixWidth ≤ x ∨ kMatrixHeight ≤ y
  · refine ⟨63, XY_of_out x y h, ?_, ?_, rfl, hN⟩ <;> rw [hN] <;> decide
  · have hx8 : x < kMatrixWidth := by omega
    have hy11 : y < kMatrixHeight := by omega
    obtain ⟨v, hv, hlt, -⟩ := XY_in_range x y hx8 hy11
    refine ⟨v, hv, ?_, ?_, rfl, hN⟩ <;> rw [hN] <;> omega

/-- C1 at the far corner `(255, 255)`. -/
theorem XY_total_witness :
    (255 < 256 ∧ 255 < 256) ∧
    ∃ v, XY 255 255 = some v ∧ v ≤ NUM_LEDS - 1 ∧ v < NUM_LEDS ∧
      NUM_LEDS = kMatrixWidth * kMatrixHeight ∧ NUM_LEDS = 88 :=
  ⟨by decide, XY_total 255 255 (by decide) (by decide)⟩

/-- C2. Boundary collapse: for every `x`, `y` in `0..255` with
`x >= kMatrixWidth` (8) or `y >= kMatrixHeight` (11), `XY x y` is
`LAST_VISIBLE_LED + 1 = 63`, the same value however far out of range. -/
theorem XY_boundary_collapse (x y : Nat) (_hx : x < 256) (_hy : y < 256)
    (h : x ≥ kMatrixWidth ∨ y ≥ kMatrixHeight) :
    XY x y = some (LAST_VISIBLE_LED + 1) ∧ LAST_VISIBLE_LED + 1 = 63 ∧
      kMatrixWidth = 8 ∧ kMatrixHeight = 11 :=
  ⟨XY_of_out x y h, rfl, rfl, rfl⟩

/-- C2 at `(8, 0)`, `(0, 11)` and `(255, 255)`. -/
theorem XY_boundary_collapse_witness :
    XY 8 0 = some 63 ∧ XY 0 11 = some 63 ∧ XY 255 255 = some 63 :=
  ⟨(XY_boundary_collapse 8 0 (by decide) (by decide) (Or.inl (by decide))).1,
   (XY_boundary_collapse 0 11 (by decide) (by decide) (Or.inr (by decide))).1,
   (XY_boundary_collapse 255 255 (by decide) (by decide) (Or.inl (by decide))).1⟩

/-- C3. The lookup agrees with the pixel-layout diagram on every lit position:
with `rowLen = [6,5,5,5,5,6,7,8,7,5,4]` and
`rowStart = [0,6,11,16,21,26,32,39,47,54,59]`, for every `y < 11` and every
`x < rowLen[y]`, `XY x y = rowStart[y] + x`, which is the number the diagram
shows at that position. -/
theorem XY_agrees_with_diagram (x y : Nat) (hy : y < 11) (hx : x < rowLen.getD y 0) :
    XY x y = some (rowStart.getD y 0 + x) ∧ diagramCell x y = XY x y ∧
      rowLen = [6, 5, 5, 5, 5, 6, 7, 8, 7, 5, 4] ∧
      rowStart = [0, 6, 11, 16, 21, 26, 32, 39, 47, 54, 59] := by
  have hl : lit x y := ⟨hy, hx⟩
  obtain ⟨hx8, -⟩ := lit_in_range x y hl
  obtain ⟨v, hv, -, -, -, hd⟩ := XY_in_range x y hx8 hy
  obtain ⟨h1, h2⟩ := hd hl
  exact ⟨by rw [hv, h1], by rw [hv, h2], rfl, rfl⟩

/-- C3 at `(0, 0)`, `(0, 10)` and `(7, 7)`. -/
theorem XY_agrees_with_diagram_witness :
    XY 0 0 = some 0 ∧ XY 0 10 = some 59 ∧ XY 7 7 = some 46 :=
  ⟨(XY_agrees_with_diagram 0 0 (by decide) (by decide)).1,
   (XY_agrees_with_diagram 0 10 (by decide) (by decide)).1,
   (XY_agrees_with_diagram 7 7 (by decide) (by decide)).1⟩

/-- C4. Bijection on the valid rectangle: `XY` restricted to the in-range
coordinates `x < 8`, `y < 11` is a bijection onto `[0, 87]`: every in-range
coordinate returns an index below `88`, no two distinct in-range coordinates
return the same index, and every index in `0..87` is returned by exactly one
in-range coordinate. -/
theorem XY_bijection_on_rectangle :
    (kMatrixWidth = 8 ∧ kMatrixHeight = 11) ∧
    (∀ x y, x < kMatrixWidth → y < kMatrixHeight → ∃ v, XY x y = some v ∧ v < 88) ∧
    (∀ x y a b, x < kMatrixWidth → y < kMatrixHeight → a < kMatrixWidth →
      b < kMatrixHeight → XY x y = XY a b → x = a ∧ y = b) ∧
    (∀ v, v < 88 →
      ∃! p : Nat × Nat, p.1 < kMatrixWidth ∧ p.2 < kMatrixHeight ∧ XY p.1 p.2 = some v) := by
  refine ⟨⟨rfl, rfl⟩, ?_, XY_in_range_inj, XY_in_range_existsUnique⟩
  intro x y hx hy
  obtain ⟨v, hv, hlt, -⟩ := XY_in_range x y hx hy
  exact ⟨v, hv, hlt⟩

/-- C4 at the last position `(7, 10)` and the last index `87`. -/
theorem XY_bijection_on_rectangle_witness :
    (∃ v, XY 7 10 = some v ∧ v < 88) ∧
    (XY 7 10 = XY 7 10 → 7 = 7 ∧ 10 = 10) ∧
    (∃! p : Nat × Nat, p.1 < kMatrixWidth ∧ p.2 < kMatrixHeight ∧ XY p.1 p.2 = some 87) :=
  ⟨XY_bijection_on_rectangle.2.1 7 10 (by decide) (by decide),
   XY_bijection_on_rectangle.2.2.1 7 10 7 10 (by decide) (by decide) (by decide) (by decide),
   XY_bijection_on_rectangle.2.2.2 87 (by decide)⟩

/-- The value of `XY` against the visible boundary, at any position: above
`LAST_VISIBLE_LED` exactly off the lit positions. -/
theorem XY_visible_iff_lit (x y : Nat) :
    ∃ v, XY x y = some v ∧ (LAST_VISIBLE_LED < v ↔ ¬ lit x y) := by
  by_cases h : kMatrixWidth ≤ x ∨ kMatrixHeight ≤ y
  · exact ⟨63, XY_of_out x y h, fun _ => not_lit_of_out x y h, fun _ => by decide⟩
  · have hx8 : x < kMatrixWidth := by omega
    have hy11 : y < kMatrixHeight := by omega
    obtain ⟨v, hv, -, -, hl, -⟩ := XY_in_range x y hx8 hy11
    refine ⟨v, hv, ?_⟩
    unfold LAST_VISIBLE_LED
    rw [← hl]
    omega

/-- C5. The documented on/off-layout test is exact: for every `x`, `y` in
`0..255`, `XY x y > LAST_VISIBLE_LED` (62) if and only if `(x, y)` is not a lit
position of the layout diagram, that is, not (`y < 11` and `x < rowLen[y]`).
Consequently the index of a lit position is strictly less than the index of
any position that is not lit, and `XY 7 0 >= 63`. -/
theorem XY_off_layout_test :
    (∀ x y, x < 256 → y < 256 →
      ∃ v, XY x y = some v ∧
        (v > LAST_VISIBLE_LED ↔ ¬ (y < 11 ∧ x < rowLen.getD y 0))) ∧
    (∀ x y a b v w, x < 256 → y < 256 → a < 256 → b < 256 →
      (y < 11 ∧ x < rowLen.getD y 0) → ¬ (b < 11 ∧ a < rowLen.getD b 0) →
      XY x y = some v → XY a b = some w → v < w) ∧
    (∃ v, XY 7 0 = some v ∧ v ≥ 63) ∧
    LAST_VISIBLE_LED = 62 ∧ rowLen = [6, 5, 5, 5, 5, 6, 7, 8, 7, 5, 4] := by
  refine ⟨fun x y _ _ => XY_visible_iff_lit x y, ?_, ⟨64, by decide, by decide⟩, rfl, rfl⟩
  intro x y a b v w _ _ _ _ hl hn hv hw
  obtain ⟨v1, hv1, h1⟩ := XY_visible_iff_lit x y
  obtain ⟨w1, hw1, h2⟩ := XY_visible_iff_lit a b
  rw [hv] at hv1
  rw [hw] at hw1
  cases Option.some.inj hv1
  cases Option.some.inj hw1
  have hw62 : LAST_VISIBLE_LED < w := h2.mpr hn
  have hv62 : ¬ LAST_VISIBLE_LED < v := fun hc => h1.mp hc hl
  omega

/-- C5 at the hole `(7, 0)`, and for the lit `(5, 0)` against the hole `(6, 0)`. -/
theorem XY_off_layout_test_witness :
    (∃ v, XY 7 0 = some v ∧ (v > LAST_VISIBLE_LED ↔ ¬ (0 < 11 ∧ 7 < rowLen.getD 0 0))) ∧
    ((XY 5 0 = some 5 ∧ XY 6 0 = some 63) ∧ 5 < 63) :=
  ⟨XY_off_layout_test.1 7 0 (by decide) (by decide),
   ⟨by decide, by decide⟩,
   XY_off_layout_test.2.1 5 0 6 0 5 63 (by decide) (by decide) (by decide) (by decide)
     (by decide) (by decide) (by decide) (by decide)⟩

/-- C6. Visible-range completeness: the values `XY x y` over the in-range
coordinates (`x < 8`, `y < 11`) whose result is a visible index
(`<= LAST_VISIBLE_LED`) are exactly `0, 1, ..., 62` (63 values), with no gap,
and each of these 63 values is produced by exactly one in-range coordinate. -/
theorem XY_visible_range_complete :
    (∀ v, (∃ x y, x < kMatrixWidth ∧ y < kMatrixHeight ∧ XY x y = some v ∧
        v ≤ LAST_VISIBLE_LED) ↔ v < 63) ∧
    (∀ v, v < 63 →
      ∃! p : Nat × Nat, p.1 < kMatrixWidth ∧ p.2 < kMatrixHeight ∧ XY p.1 p.2 = some v) ∧
    (kMatrixWidth = 8 ∧ kMatrixHeight = 11 ∧ LAST_VISIBLE_LED + 1 = 63) := by
  refine ⟨fun v => ⟨?_, fun hv => ?_⟩, fun v hv => XY_in_range_existsUnique v (by omega),
    rfl, rfl, rfl⟩
  · rintro ⟨x, y, -, -, -, hle⟩
    unfold LAST_VISIBLE_LED at hle
    omega
  · obtain ⟨h1, h2, h3⟩ := XY_coordOf v (by omega)
    refine ⟨_, _, h1, h2, h3, ?_⟩
    unfold LAST_VISIBLE_LED
    omega

/-- C6 at the last visible index `62`. -/
theorem XY_visible_range_complete_witness :
    ((∃ x y, x < kMatrixWidth ∧ y < kMatrixHeight ∧ XY x y = some 62 ∧
        62 ≤ LAST_VISIBLE_LED) ↔ 62 < 63) ∧
    (∃! p : Nat × Nat, p.1 < kMatrixWidth ∧ p.2 < kMatrixHeight ∧ XY p.1 p.2 = some 62) :=
  ⟨XY_visible_range_complete.1 62, XY_visible_range_complete.2.1 62 (by decide)⟩

/-- C7. Overflow coincides with the first hole slot: the value returned for
every out-of-range coordinate, `LAST_VISIBLE_LED + 1 = 63`, is the minimum of
`XY` over the in-range hole positions (those with `XY > LAST_VISIBLE_LED`): it
is the value of one of them and a lower bound of all of them; in range it is
attained by exactly one coordinate, `(6, 0)`; and it is below the buffer
capacity, `63 < NUM_LEDS = 88`. -/
theorem overflow_is_first_hole :
    (∀ x y, x < 256 → y < 256 → (x ≥ kMatrixWidth ∨ y ≥ kMatrixHeight) →
      XY x y = some (LAST_VISIBLE_LED + 1)) ∧
    LAST_VISIBLE_LED + 1 = 63 ∧
    (∃ x y, x < kMatrixWidth ∧ y < kMatrixHeight ∧ XY x y = some (LAST_VISIBLE_LED + 1) ∧
      LAST_VISIBLE_LED + 1 > LAST_VISIBLE_LED) ∧
    (∀ x y v, x < kMatrixWidth → y < kMatrixHeight → XY x y = some v →
      v > LAST_VISIBLE_LED → LAST_VISIBLE_LED + 1 ≤ v) ∧
    (∀ x y, x < kMatrixWidth → y < kMatrixHeight →
      (XY x y = some (LAST_VISIBLE_LED + 1) ↔ (x = 6 ∧ y = 0))) ∧
    (LAST_VISIBLE_LED + 1 < NUM_LEDS ∧ NUM_LEDS = 88) := by
  have h60 : XY 6 0 = some (LAST_VISIBLE_LED + 1) := by decide
  refine ⟨fun x y _ _ h => XY_of_out x y h, rfl, ⟨6, 0, by decide, by decide, h60, by decide⟩,
    fun x y v _ _ _ hv => hv, fun x y hx hy => ⟨fun h => ?_, ?_⟩, by decide, rfl⟩
  · exact XY_in_range_inj x y 6 0 hx hy (by decide) (by decide) (h.trans h60.symm)
  · rintro ⟨rfl, rfl⟩
    exact h60

/-- C7 at `(255, 0)`, at the last hole `(7, 10)`, and at `(6, 0)` and `(7, 0)`. -/
theorem overflow_is_first_hole_witness :
    XY 255 0 = some (LAST_VISIBLE_LED + 1) ∧
    LAST_VISIBLE_LED + 1 ≤ 87 ∧
    (XY 6 0 = some (LAST_VISIBLE_LED + 1) ↔ (6 = 6 ∧ 0 = 0)) ∧
    (XY 7 0 = some (LAST_VISIBLE_LED + 1) ↔ (7 = 6 ∧ 0 = 0)) :=
  ⟨overflow_is_first_hole.1 255 0 (by decide) (by decide) (Or.inl (by decide)),
   overflow_is_first_hole.2.2.2.1 7 10 87 (by decide) (by decide) (by decide) (by decide),
   overflow_is_first_hole.2.2.2.2.1 6 0 (by decide) (by decide),
   overflow_is_first_hole.2.2.2.2.1 7 0 (by decide) (by decide)⟩

/-- C8, counterexample. The in-range coordinate `(6, 0)` maps to the overflow
index `LAST_VISIBLE_LED + 1 = 63`, so it is false that every in-range
coordinate differs from the overflow index. -/
theorem XY_in_range_hits_overflow :
    (6 < kMatrixWidth ∧ 0 < kMatrixHeight ∧ XY 6 0 = some (LAST_VISIBLE_LED + 1) ∧
      LAST_VISIBLE_LED + 1 = 63) ∧
    ¬ (∀ x y, x < kMatrixWidth → y < kMatrixHeight →
        XY x y ≠ some (LAST_VISIBLE_LED + 1)) :=
  ⟨by decide, fun h => h 6 0 (by decide) (by decide) (by decide)⟩

/-- C8, amended. Every in-range coordinate other than the hole `(6, 0)` differs
from the overflow index: for `x < 8`, `y < 11` with `(x, y)` not `(6, 0)`,
`XY x y` is not `LAST_VISIBLE_LED + 1 = 63`; in particular no lit position
maps to the overflow index. -/
theorem XY_in_range_ne_overflow (x y : Nat) (hx : x < kMatrixWidth) (hy : y < kMatrixHeight)
    (hne : (x, y) ≠ (6, 0)) :
    XY x y ≠ some (LAST_VISIBLE_LED + 1) ∧ ¬ lit 6 0 := by
  refine ⟨fun h => hne ?_, by decide⟩
  have h60 : XY 6 0 = some (LAST_VISIBLE_LED + 1) := by decide
  obtain ⟨e1, e2⟩ := XY_in_range_inj x y 6 0 hx hy (by decide) (by decide) (h.trans h60.symm)
  rw [e1, e2]

/-- C8 amended, at the hole `(7, 0)`. -/
theorem XY_in_range_ne_overflow_witness :
    (7 < kMatrixWidth ∧ 0 < kMatrixHeight ∧ (7, 0) ≠ (6, 0)) ∧
    XY 7 0 ≠ some (LAST_VISIBLE_LED + 1) ∧ ¬ lit 6 0 :=
  ⟨by decide, XY_in_range_ne_overflow 7 0 (by decide) (by decide) (by decide)⟩

/-- C9. Configuration consistency of the table size: `XYTable` has exactly
`kMatrixWidth * kMatrixHeight = 88` entries, which equals `NUM_LEDS`, the size
of the `leds` buffer. -/
theorem XYTable_length :
    XYTable.length = kMatrixWidth * kMatrixHeight ∧ kMatrixWidth * kMatrixHeight = 88 ∧
      XYTable.length = NUM_LEDS :=
  ⟨rfl, rfl, rfl⟩

/-- C10. In-range lookup is a safe row-major table read: for every `(x, y)`
with `x < 8` and `y < 11`, the offset `i = (y * kMatrixWidth) + x` stored in a
`uint8_t` equals the exact integer `y * 8 + x` (no truncation modulo 256),
satisfies `i < 88 = XYTable.length`, so the read `XYTable[i]` is in bounds, and
`XY x y` returns exactly that entry. -/
theorem XY_in_range_lookup (x y : Nat) (hx : x < kMatrixWidth) (hy : y < kMatrixHeight) :
    (kMatrixWidth = 8 ∧ kMatrixHeight = 11) ∧
    XYoffset x y = y * 8 + x ∧
    XYoffset x y < XYTable.length ∧ XYTable.length = 88 ∧
    ∃ h : XYoffset x y < XYTable.length, XY x y = some (XYTable.get ⟨XYoffset x y, h⟩) := by
  obtain ⟨hoff, hlt⟩ := XYoffset_exact x y hx hy
  have hlen : XYTable.length = 88 := rfl
  have hlt2 : XYoffset x y < XYTable.length := by rw [hlen]; exact hlt
  refine ⟨⟨rfl, rfl⟩, hoff, hlt2, hlen, hlt2, ?_⟩
  have hget : XYTable[XYoffset x y]? = some (XYTable.get ⟨XYoffset x y, hlt2⟩) :=
    List.getElem?_eq_getElem hlt2
  have hu8 : toU8 (XYTable.get ⟨XYoffset x y, hlt2⟩) = XYTable.get ⟨XYoffset x y, hlt2⟩ :=
    Nat.mod_eq_of_lt (XYTable_entries_u8 _ (List.get_mem _ _ _))
  have hin : ¬ (x ≥ kMatrixWidth ∨ y ≥ kMatrixHeight) := by omega
  unfold XY
  rw [if_neg hin]
  simp only [hget, Option.map_some', hu8]

/-- C10 at the last position `(7, 10)`. -/
theorem XY_in_range_lookup_witness :
    (7 < kMatrixWidth ∧ 10 < kMatrixHeight) ∧
    XYoffset 7 10 = 10 * 8 + 7 ∧
    XYoffset 7 10 < XYTable.length ∧ XYTable.length = 88 ∧
    ∃ h : XYoffset 7 10 < XYTable.length, XY 7 10 = some (XYTable.get ⟨XYoffset 7 10, h⟩) :=
  ⟨by decide, (XY_in_range_lookup 7 10 (by decide) (by decide)).2⟩

/-! ## Hole numbering and table size -/

/-- A hole is an in-range position that is not lit. -/
theorem isHole_iff (x y : Nat) :
    isHole x y ↔ x < kMatrixWidth ∧ y < kMatrixHeight ∧ ¬ lit x y := by
  unfold isHole lit kMatrixWidth kMatrixHeight
  constructor
  · rintro ⟨h1, h2, h3⟩
    exact ⟨h3, h1, fun h => by omega⟩
  · rintro ⟨h1, h2, h3⟩
    refine ⟨h2, ?_, h1⟩
    by_contra hc
    exact h3 ⟨h2, by omega⟩

/-- The list `rectangle` holds exactly the in-range positions. -/
theorem mem_rectangle (p : Nat × Nat) :
    p ∈ rectangle ↔ p.1 < kMatrixWidth ∧ p.2 < kMatrixHeight := by
  obtain ⟨a, b⟩ := p
  simp only [rectangle, List.mem_flatMap, List.mem_range, List.mem_map, Prod.mk.injEq]
  constructor
  · rintro ⟨b1, hb, a1, ha, rfl, rfl⟩
    exact ⟨ha, hb⟩
  · rintro ⟨ha, hb⟩
    exact ⟨b, hb, a, ha, rfl, rfl⟩

/-- The list `rectangle` holds each position once. -/
theorem rectangle_nodup : rectangle.Nodup := by decide

set_option maxRecDepth 8000 in
/-- The table entry of a hole is `63` plus the number of holes before it. -/
theorem hole_cells : ∀ x < 8, ∀ y < 11, ¬ lit x y →
    XYTable.getD (y * 8 + x) 0 = 63 + holesBefore x y := by
  decide

set_option maxRecDepth 8000 in
/-- Among the lit positions, and among the holes, the table entries grow with
the table offset. -/
theorem order_offsets : ∀ i < 88, ∀ j < 88,
    (i < j ∧ (lit (i % 8) (i / 8) ↔ lit (j % 8) (j / 8))) →
    XYTable.getD i 0 < XYTable.getD j 0 := by
  decide

/-- Among the lit positions, and among the holes, the table entries grow in
row-major order. -/
theorem order_cells (a b x y : Nat) (ha : a < 8) (hb : b < 11) (hx : x < 8) (hy : y < 11)
    (hp : precedes a b x y) (hl : lit a b ↔ lit x y) :
    XYTable.getD (b * 8 + a) 0 < XYTable.getD (y * 8 + x) 0 := by
  have e1 : (b * 8 + a) % 8 = a := by omega
  have e2 : (b * 8 + a) / 8 = b := by omega
  have e3 : (y * 8 + x) % 8 = x := by omega
  have e4 : (y * 8 + x) / 8 = y := by omega
  refine order_offsets (b * 8 + a) (by omega) (y * 8 + x) (by omega) ⟨?_, ?_⟩
  · unfold precedes at hp
    omega
  · rw [e1, e2, e3, e4]
    exact hl

set_option maxRecDepth 8000 in
/-- Every index from `63` to `87` sits on a hole. -/
theorem hole_of_index : ∀ v < 88, 63 ≤ v → isHole (coordOf v).1 (coordOf v).2 := by
  decide

/-- The count `holesBefore` is the number of in-range holes that strictly
precede the position in row-major order. -/
theorem holesBefore_eq_card (x y : Nat) :
    holesBefore x y =
      ((Finset.range kMatrixWidth ×ˢ Finset.range kMatrixHeight).filter
        (fun p => isHole p.1 p.2 ∧ precedes p.1 p.2 x y)).card := by
  have hset : Finset.range kMatrixWidth ×ˢ Finset.range kMatrixHeight = rectangle.toFinset := by
    ext p
    rw [List.mem_toFinset, mem_rectangle, Finset.mem_product, Finset.mem_range,
      Finset.mem_range]
  have hnd : (rectangle.filter
      fun p => decide (isHole p.1 p.2 ∧ precedes p.1 p.2 x y)).Nodup :=
    rectangle_nodup.filter _
  unfold holesBefore
  rw [List.countP_eq_length_filter, ← List.toFinset_card_of_nodup hnd, hset,
    List.toFinset_filter]
  congr 1
  ext p
  simp only [Finset.mem_filter, List.mem_toFinset, decide_eq_true_eq]

/-- C11. Hole slots are numbered consecutively in row-major order starting at
`63`: for every in-range hole position `(x, y)` (`y < 11` and
`rowLen[y] <= x < 8`), `XY x y` is `63` plus the number of in-range hole
positions that strictly precede `(x, y)` in row-major order (an earlier row,
or the same row and an earlier column).  Hence the hole indices are exactly
`63..87`, and within the holes, as within the lit positions, `XY` is strictly
increasing in row-major order. -/
theorem hole_slots_consecutive :
    (∀ x y, (y < 11 ∧ rowLen.getD y 0 ≤ x ∧ x < 8) →
      XY x y = some (63 +
        ((Finset.range kMatrixWidth ×ˢ Finset.range kMatrixHeight).filter
          (fun p => (p.2 < 11 ∧ rowLen.getD p.2 0 ≤ p.1 ∧ p.1 < 8) ∧
            (p.2 < y ∨ (p.2 = y ∧ p.1 < x)))).card)) ∧
    (∀ v, (∃ x y, isHole x y ∧ XY x y = some v) ↔ (63 ≤ v ∧ v ≤ 87)) ∧
    (∀ a b x y v w, isHole a b → isHole x y → precedes a b x y →
      XY a b = some v → XY x y = some w → v < w) ∧
    (∀ a b x y v w, lit a b → lit x y → precedes a b x y →
      XY a b = some v → XY x y = some w → v < w) ∧
    (rowLen = [6, 5, 5, 5, 5, 6, 7, 8, 7, 5, 4] ∧ LAST_VISIBLE_LED + 1 = 63 ∧
      kMatrixWidth = 8 ∧ kMatrixHeight = 11) := by
  refine ⟨fun x y h => ?_, fun v => ⟨?_, fun hv => ?_⟩, ?_, ?_, rfl, rfl, rfl, rfl⟩
  · have hh : isHole x y := h
    obtain ⟨hx, hy, hl⟩ := (isHole_iff x y).mp hh
    have hc := holesBefore_eq_card x y
    unfold isHole precedes at hc
    rw [← hc, XY_in_table x hx y hy, hole_cells x hx y hy hl]
  · rintro ⟨x, y, hh, hxy⟩
    obtain ⟨hx, hy, hl⟩ := (isHole_iff x y).mp hh
    obtain ⟨u, hu, hlt, -, hvis, -⟩ := XY_in_range x y hx hy
    rw [hxy] at hu
    cases Option.some.inj hu
    have hnv : ¬ v ≤ 62 := fun hc => hl (hvis.mp hc)
    omega
  · obtain ⟨-, -, h3⟩ := XY_coordOf v (by omega)
    exact ⟨_, _, hole_of_index v (by omega) hv.1, h3⟩
  · intro a b x y v w hab hxy hp hv hw
    obtain ⟨ha, hb, hl1⟩ := (isHole_iff a b).mp hab
    obtain ⟨hx, hy, hl2⟩ := (isHole_iff x y).mp hxy
    rw [XY_in_table a ha b hb] at hv
    rw [XY_in_table x hx y hy] at hw
    cases Option.some.inj hv
    cases Option.some.inj hw
    exact order_cells a b x y ha hb hx hy hp ⟨fun h => absurd h hl1, fun h => absurd h hl2⟩
  · intro a b x y v w hab hxy hp hv hw
    obtain ⟨ha, hb⟩ := lit_in_range a b hab
    obtain ⟨hx, hy⟩ := lit_in_range x y hxy
    rw [XY_in_table a ha b hb] at hv
    rw [XY_in_table x hx y hy] at hw
    cases Option.some.inj hv
    cases Option.some.inj hw
    exact order_cells a b x y ha hb hx hy hp ⟨fun _ => hxy, fun _ => hab⟩

/-- C11 at the last hole `(7, 10)`, which 24 holes precede, at the first hole
`(6, 0)` against the second `(7, 0)`, and at the lit `(5, 0)` against the lit
`(0, 1)`. -/
theorem hole_slots_consecutive_witness :
    (isHole 7 10 ∧ holesBefore 7 10 = 24 ∧ XY 7 10 = some 87 ∧
      XY 7 10 = some (63 +
        ((Finset.range kMatrixWidth ×ˢ Finset.range kMatrixHeight).filter
          (fun p => (p.2 < 11 ∧ rowLen.getD p.2 0 ≤ p.1 ∧ p.1 < 8) ∧
            (p.2 < 10 ∨ (p.2 = 10 ∧ p.1 < 7)))).card)) ∧
    ((∃ x y, isHole x y ∧ XY x y = some 63) ↔ (63 ≤ 63 ∧ 63 ≤ 87)) ∧
    ((isHole 6 0 ∧ isHole 7 0 ∧ precedes 6 0 7 0 ∧ XY 6 0 = some 63 ∧ XY 7 0 = some 64) ∧
      63 < 64) ∧
    ((lit 5 0 ∧ lit 0 1 ∧ precedes 5 0 0 1 ∧ XY 5 0 = some 5 ∧ XY 0 1 = some 6) ∧ 5 < 6) :=
  ⟨⟨by decide, by decide, by decide, hole_slots_consecutive.1 7 10 (by decide)⟩,
   hole_slots_consecutive.2.1 63,
   ⟨by decide, hole_slots_consecutive.2.2.1 6 0 7 0 63 64 (by decide) (by decide) (by decide)
      (by decide) (by decide)⟩,
   ⟨by decide, hole_slots_consecutive.2.2.2.1 5 0 0 1 5 6 (by decide) (by decide) (by decide)
      (by decide) (by decide)⟩⟩

/-- C12, counterexample. The table `XYTable` has 88 entries of one byte each,
so it is not a table of 80 one-byte entries. -/
theorem XYTable_not_80_bytes :
    XYTable.length = 88 ∧ XYTable.length ≠ 80 ∧ XYTable.length * sizeofU8 ≠ 80 := by
  decide

/-- C12, amended. The supporting lookup table used by `XY` is an 88-byte
table: `XYTable` consists of `88 = kMatrixWidth * kMatrixHeight` entries, each
a one-byte (`uint8_t`) value. -/
theorem XYTable_is_88_bytes :
    XYTable.length = 88 ∧ XYTable.length = kMatrixWidth * kMatrixHeight ∧
    (∀ v ∈ XYTable, v < 256) ∧ XYTable.length * sizeofU8 = 88 :=
  ⟨rfl, rfl, XYTable_entries_u8, rfl⟩

/-- C12 amended, at the largest entry `87`. -/
theorem XYTable_is_88_bytes_witness : 87 ∈ XYTable ∧ 87 < 256 :=
  ⟨by decide, XYTable_is_88_bytes.2.2.1 87 (by decide)⟩

end XYmap
